import Mathlib

/-!
Verification of the event-emitter dispatch engine (src/index.js).

The JavaScript source is shallowly embedded: JS numbers become an inductive
`JNum` (rationals plus `Infinity`, `-Infinity`, `NaN`), JS values an inductive
`Value`, listener callbacks are opaque identifiers whose behaviour (registry
mutations performed during the call, plus a returned value or a thrown error)
is supplied by an environment, and exceptions become `Except`.
-/

namespace EvEmit

/-- JS numbers as used by the emitter: finite doubles are modelled as
rationals; `NaN`, `Infinity` and `-Infinity` are separate constructors. -/
inductive JNum where
  | nan : JNum
  | inf : JNum
  | ninf : JNum
  | fin (q : ℚ) : JNum
deriving DecidableEq

/-- JS `x - 1` (the effect of `--x` on the stored number). -/
def JNum.sub1 : JNum → JNum
  | .nan => .nan
  | .inf => .inf
  | .ninf => .ninf
  | .fin q => .fin (q - 1)

/-- JS `<` comparison: any comparison with `NaN` is `false`. -/
def JNum.lt : JNum → JNum → Bool
  | .nan, _ => false
  | _, .nan => false
  | .ninf, .ninf => false
  | .ninf, _ => true
  | _, .ninf => false
  | .inf, _ => false
  | .fin _, .inf => true
  | .fin a, .fin b => decide (a < b)

/-- JS values that can flow through the emitter: `undefined`, `null`,
booleans, numbers, strings, functions, plain objects and promises
(functions, objects and promises are opaque identities). -/
inductive Value where
  | undef : Value
  | vnull : Value
  | vbool (b : Bool) : Value
  | num (j : JNum) : Value
  | str (s : String) : Value
  | fn (f : Nat) : Value
  | obj (o : Nat) : Value
  | prom (p : Nat) : Value
deriving DecidableEq

/-- The `onError` directive of `emit`/`emit2`:
`undefined` (throw), `null` (ignore), `false` (treat error as result),
or a handler function. -/
inductive ErrPolicy where
  | undef : ErrPolicy
  | ignore : ErrPolicy
  | asResult : ErrPolicy
  | handler (f : Value → Value) : ErrPolicy

/-- The `setval` closure inside `handleError`: push when no index is given,
assign `results[index]` otherwise (`index` always names an existing slot in
the source's uses). -/
def setval (results : List Value) (index : Option Nat) (v : Value) : List Value :=
  match index with
  | none => results ++ [v]
  | some i => results.set i v

/-- `handleError(results, error, onError, index)` from src/index.js lines 6-24.
Returns the updated results list, or `Except.error` when the error is
rethrown (directive `undefined`).  `results.splice(index, 1)` is `eraseIdx`. -/
def handleError (results : List Value) (error : Value) (onError : ErrPolicy)
    (index : Option Nat) : Except Value (List Value) :=
  match onError with
  | .undef => .error error
  | .asResult => .ok (setval results index error)
  | .handler f =>
      let retval := f error
      if retval ≠ Value.undef then .ok (setval results index retval)
      else .ok (match index with
                | some i => results.eraseIdx i
                | none => results)
  | .ignore => .ok (match index with
                    | some i => results.eraseIdx i
                    | none => results)

/-- A listener record, `{ callback, count }` from `addListener`.  `rid` models
JavaScript object identity (each registration creates a fresh object);
`callback` is the identity of the listener function. -/
structure Rec where
  rid : Nat
  callback : Nat
  count : JNum
deriving DecidableEq

/-- What a listener call produces: a return value or a thrown error. -/
inductive Outcome where
  | ret (v : Value) : Outcome
  | thr (e : Value) : Outcome
deriving DecidableEq

/-- A registry mutation a listener may perform during dispatch: insert a
record into an event's listener array (at the front or the back), or remove
the first record whose callback matches. -/
inductive RegOp where
  | addRec (event : String) (r : Rec) (front : Bool) : RegOp
  | rmCb (event : String) (cb : Nat) : RegOp
deriving DecidableEq

/-- The behaviour environment: callback identity and the call's arguments
determine the registry mutations performed during the call and its outcome. -/
def Env : Type := Nat → List Value → List RegOp × Outcome

/-- Point update of the registry map. -/
def updEvs (evs : String → List Rec) (e : String) (l : List Rec) :
    String → List Rec :=
  fun x => if x = e then l else evs x

/-- The `--listener.count` mutation: the snapshot entry and the live array
share the record object, so the decrement is visible in the live array. -/
def decCount (l : List Rec) (i : Nat) : List Rec :=
  l.map fun r => if r.rid = i then { r with count := r.count.sub1 } else r

/-- `listeners.splice(listeners.indexOf(listener), 1)` when present: remove
the first record with the given identity. -/
def removeFirstId : List Rec → Nat → List Rec
  | [], _ => []
  | r :: rest, i => if r.rid = i then rest else r :: removeFirstId rest i

/-- Remove the first record whose callback matches (identity equality). -/
def removeFirstCb : List Rec → Nat → List Rec
  | [], _ => []
  | r :: rest, c => if r.callback = c then rest else r :: removeFirstCb rest c

/-- Apply one registry mutation. -/
def applyOp (evs : String → List Rec) : RegOp → String → List Rec
  | .addRec e r front => updEvs evs e (if front then r :: evs e else evs e ++ [r])
  | .rmCb e c => updEvs evs e (removeFirstCb (evs e) c)

/-- Errors constructed by the emitter itself (`EventEmitterError` instances,
identified by which validation produced them). -/
inductive ErrKind where
  | invalidEventName (event : String) : ErrKind
  | invalidCount (count : Value) : ErrKind
  | invalidListener (index : Nat) : ErrKind
  | duplicateEvent (index : Nat) (event : String) : ErrKind
deriving DecidableEq

/-- A thrown JavaScript exception: an emitter validation error or an
arbitrary value thrown by a listener. -/
inductive Thrown where
  | err (k : ErrKind) : Thrown
  | val (v : Value) : Thrown
deriving DecidableEq

/-- The emitter state: `_events` (as a total map, lazily-created empty entries
being unobservable), `_maxListeners`, `_validEvents`, `_warnings`, plus a
fresh-identity counter standing for JavaScript object allocation. -/
structure Emitter where
  events : String → List Rec
  maxListeners : JNum
  validEvents : List String
  warnings : List String
  fresh : Nat

/-- A freshly constructed emitter with no constructor arguments. -/
def initEmitter : Emitter :=
  { events := fun _ => [], maxListeners := .fin 10, validEvents := [],
    warnings := [], fresh := 0 }

/-- `listeners(event)` from src/index.js lines 220-228: fails when a
non-empty allow-list does not contain the event, otherwise yields the live
listener array. -/
def Emitter.listeners (em : Emitter) (event : String) :
    Except ErrKind (List Rec) :=
  if em.validEvents ≠ [] ∧ event ∉ em.validEvents then
    .error (.invalidEventName event)
  else .ok (em.events event)

/-- The `args` parameter of `emit`: an array, or a single value. -/
inductive JArg where
  | arrv (l : List Value) : JArg
  | val (v : Value) : JArg

/-- Lines 168-169: a non-array argument is wrapped into a one-element array,
`undefined` becomes the empty array. -/
def normArgs : JArg → List Value
  | .arrv l => l
  | .val .undef => []
  | .val v => [v]

/-- Result of the dispatch loop: the updated registry, the invocation trace
(record identity and callback of each listener actually invoked, in order),
and the results list or the propagated error. -/
structure LoopOut where
  evs : String → List Rec
  trace : List (Nat × Nat)
  out : Except Value (List Value)

/-- The registry effect of one iteration of the dispatch loop for snapshot
record `r` (lines 172-175 plus the mutations the callback performs during
its call): decrement the shared record's count (`--listener.count`), remove
it from the live array when the decremented count is below 1, then apply the
callback's registry mutations. -/
def stepEvs (env : Env) (event : String) (args : List Value)
    (evs : String → List Rec) (r : Rec) : String → List Rec :=
  (env r.callback args).1.foldl applyOp
    (updEvs evs event
      (if JNum.lt r.count.sub1 (.fin 1)
       then removeFirstId (decCount (evs event) r.rid) r.rid
       else decCount (evs event) r.rid))

/-- The `for (const listener of listeners.slice())` loop of `emit`
(lines 171-181): for each snapshot record, apply `stepEvs` and invoke the
callback, pushing the result, or applying `handleError` with append
semantics on a throw; a propagating error aborts the remaining iteration. -/
def emitLoop (env : Env) (onError : ErrPolicy) (event : String)
    (args : List Value) :
    List Rec → (String → List Rec) → List Value → List (Nat × Nat) → LoopOut
  | [], evs, results, trace => ⟨evs, trace, .ok results⟩
  | r :: rest, evs, results, trace =>
      match (env r.callback args).2 with
      | .ret v =>
          emitLoop env onError event args rest (stepEvs env event args evs r)
            (results ++ [v]) (trace ++ [(r.rid, r.callback)])
      | .thr e =>
          match handleError results e onError none with
          | .error e' =>
              ⟨stepEvs env event args evs r, trace ++ [(r.rid, r.callback)],
               .error e'⟩
          | .ok results' =>
              emitLoop env onError event args rest (stepEvs env event args evs r)
                results' (trace ++ [(r.rid, r.callback)])

/-- Result of a full `emit` call: updated emitter, invocation trace, and the
results list or the thrown exception. -/
structure EmitOut where
  emitter : Emitter
  trace : List (Nat × Nat)
  out : Except Thrown (List Value)

/-- `emit(event, args, onError)` from src/index.js lines 165-183: resolve the
live listener array (allow-list validation), normalise `args`, iterate a
shallow-copy snapshot, and return the collected results.  The source always
returns `data.results`; there is no code path yielding `null`. -/
def emit (env : Env) (em : Emitter) (event : String) (args : JArg)
    (onError : ErrPolicy) : EmitOut :=
  match em.listeners event with
  | .error k => ⟨em, [], .error (.err k)⟩
  | .ok snapshot =>
      let o := emitLoop env onError event (normArgs args) snapshot em.events [] []
      ⟨{ em with events := o.evs }, o.trace, o.out.mapError .val⟩

/-- A sequence of `emit` calls on one event; traces are concatenated. -/
def emitSeq (env : Env) (event : String) :
    List (JArg × ErrPolicy) → Emitter → Emitter × List (Nat × Nat)
  | [], em => (em, [])
  | c :: rest, em =>
      let o := emit env em event c.1 c.2
      let s := emitSeq env event rest o.emitter
      (s.1, o.trace ++ s.2)

/-- The options argument of `addListener`: the `count` and `prepend` fields,
plus the value the options object itself shows as in `newListener` args. -/
structure AddOpts where
  count : Option JNum
  front : Bool
  ov : Value

/-- Options argument left `undefined`. -/
def noOpts : AddOpts := { count := none, front := false, ov := .undef }

/-- The `forEach` body of `addListener` (lines 94-103): validate that each
entry is a function, emit the internal `newListener` event (directive
`undefined`, so a throwing observer aborts the batch), then insert a fresh
record with `count = options.count ?? Infinity` at the back (or front when
`options.prepend`).  The second component logs the internal emit calls made
(event name and argument array). -/
def addLoop (env : Env) (event : String) (options : AddOpts) :
    List Value → Nat → Emitter → List (String × List Value) →
    Emitter × List (String × List Value) × Except Thrown Unit
  | [], _, em, log => (em, log, .ok ())
  | c :: rest, idx, em, log =>
      match c with
      | .fn cb =>
          let o := emit env em "newListener"
                     (.arrv [.str event, c, options.ov]) .undef
          let log := log ++ [("newListener", [Value.str event, c, options.ov])]
          match o.out with
          | .error t => (o.emitter, log, .error t)
          | .ok _ =>
              let r : Rec :=
                ⟨o.emitter.fresh, cb, options.count.getD .inf⟩
              let live := o.emitter.events event
              let live := if options.front then r :: live else live ++ [r]
              let em' : Emitter :=
                { o.emitter with
                    events := updEvs o.emitter.events event live,
                    fresh := o.emitter.fresh + 1 }
              addLoop env event options rest (idx + 1) em' log
      | _ => (em, log, .error (.err (.invalidListener idx)))

/-- `addListener(event, listener, options)` from lines 91-111: allow-list
validation first, then the per-callback batch, then the one-time
excess-listener warning (`listeners.length > _maxListeners` and the event not
yet in `_warnings`). -/
def addListener (env : Env) (em : Emitter) (event : String)
    (cbs : List Value) (options : AddOpts) :
    Emitter × List (String × List Value) × Except Thrown Unit :=
  match em.listeners event with
  | .error k => (em, [], .error (.err k))
  | .ok _ =>
      let o := addLoop env event options cbs 0 em []
      match o.2.2 with
      | .error t => (o.1, o.2.1, .error t)
      | .ok _ =>
          let len : JNum := .fin ((o.1.events event).length : ℚ)
          let em' := if JNum.lt o.1.maxListeners len = true
                        ∧ event ∉ o.1.warnings
                     then { o.1 with warnings := o.1.warnings ++ [event] }
                     else o.1
          (em', o.2.1, .ok ())

/-- `on`: registration with unlimited count (line 236).  (`on` itself is a
reserved token here, hence the longer name.) -/
def onEvent (env : Env) (em : Emitter) (event : String) (cbs : List Value)
    (options : AddOpts) :
    Emitter × List (String × List Value) × Except Thrown Unit :=
  addListener env em event cbs { options with count := some .inf }

/-- `once`: registration with count 1 (line 245). -/
def once (env : Env) (em : Emitter) (event : String) (cbs : List Value)
    (options : AddOpts) :
    Emitter × List (String × List Value) × Except Thrown Unit :=
  addListener env em event cbs { options with count := some (.fin 1) }

/-- The `forEach` body of `removeListener` (lines 122-134) for raw callback
entries (the record-object form of the source is not exercised here): find
the first record whose callback matches, splice it out, and emit the
internal `removeListener` event with `(eventName, callback)`; no failure
when no match exists. -/
def rmLoop (env : Env) (event : String) :
    List Value → Nat → Emitter → List (String × List Value) →
    Emitter × List (String × List Value) × Except Thrown Unit
  | [], _, em, log => (em, log, .ok ())
  | c :: rest, idx, em, log =>
      match c with
      | .fn cb =>
          match (em.events event).findIdx? (fun r => r.callback == cb) with
          | some pos =>
              let em' : Emitter :=
                { em with
                    events := updEvs em.events event
                                ((em.events event).eraseIdx pos) }
              let o := emit env em' "removeListener"
                         (.arrv [.str event, c]) .undef
              let log := log ++ [("removeListener", [Value.str event, c])]
              match o.out with
              | .error t => (o.emitter, log, .error t)
              | .ok _ => rmLoop env event rest (idx + 1) o.emitter log
          | none => rmLoop env event rest (idx + 1) em log
      | _ => (em, log, .error (.err (.invalidListener idx)))

/-- `removeListener(event, listener)` from lines 119-136: allow-list
validation first, then first-match removal per callback with the internal
`removeListener` notification after each successful removal. -/
def removeListener (env : Env) (em : Emitter) (event : String)
    (cbs : List Value) :
    Emitter × List (String × List Value) × Except Thrown Unit :=
  match em.listeners event with
  | .error k => (em, [], .error (.err k))
  | .ok _ => rmLoop env event cbs 0 em []

/-- `setMaxListeners(count)` from lines 75-81:
`typeof(count) !== 'number' || count < 1` throws, otherwise the count is
stored and the emitter returned. -/
def setMaxListeners (em : Emitter) (count : Value) : Except Thrown Emitter :=
  match count with
  | .num n =>
      if JNum.lt n (.fin 1) then .error (.err (.invalidCount (.num n)))
      else .ok { em with maxListeners := n }
  | v => .error (.err (.invalidCount v))

/-- The constructor's duplicate-checking fold over the event-name list
(lines 62-66), accumulating `_validEvents`. -/
def mkValidEvents : List String → Nat → List String →
    Except Thrown (List String)
  | [], _, acc => .ok acc
  | e :: rest, idx, acc =>
      if e ∈ acc then .error (.err (.duplicateEvent idx e))
      else mkValidEvents rest (idx + 1) (acc ++ [e])

/-- `constructor(...events)` from lines 55-68: with a non-empty argument
list, `_validEvents` starts with `newListener` and `removeListener` and each
argument is appended after a duplicate check. -/
def mkEmitter (events : List String) : Except Thrown Emitter :=
  if events = [] then .ok initEmitter
  else
    (mkValidEvents events 0 ["newListener", "removeListener"]).map
      fun ve => { initEmitter with validEvents := ve }

/-! ### The asynchronous dispatcher `emit2`

Promises are opaque identities; a settlement environment assigns each promise
a settlement time and an outcome (resolved value or rejection reason).
Continuations attached by `emit2` run in settlement-time order; `Promise.all`
resolves once every continuation has fulfilled, and rejects with the first
continuation rejection in time order. -/

/-- Settlement environment: promise identity to (settlement time, outcome). -/
def PEnv : Type := Nat → Nat × Except Value Value

/-- The `for (let index = results.length - 1; index >= 0; --index)` scan of
`emit2` (lines 194-199): the promise-valued entries of `results`, as
(index, promise) pairs in right-to-left index order (attachment order). -/
def promIdx (results : List Value) : List (Nat × Nat) :=
  (List.range results.length).reverse.filterMap fun i =>
    match results.get? i with
    | some (.prom p) => some (i, p)
    | _ => none

/-- Insert an entry into a time-ordered list, after existing entries with an
earlier-or-equal settlement time. -/
def insertByTime (penv : PEnv) (e : Nat × Nat) :
    List (Nat × Nat) → List (Nat × Nat)
  | [] => [e]
  | x :: xs =>
      if (penv e.2).1 < (penv x.2).1 then e :: x :: xs
      else x :: insertByTime penv e xs

/-- Order the attached continuations by settlement time (the order in which
the event loop runs them). -/
def sortByTime (penv : PEnv) (l : List (Nat × Nat)) : List (Nat × Nat) :=
  l.foldr (insertByTime penv) []

/-- Run the continuations in settlement order.  A fulfilled promise
overwrites its slot in place (`results[index] = value`); a rejected promise
applies `handleError` with its index; when `handleError` rethrows, that
first rejection is recorded (it is what `Promise.all` rejects with) but the
remaining continuations still run — promises are not cancelled.  Returns the
final results array, the promises whose continuations ran (in order), and
the recorded first rejection with its settlement time, if any. -/
def runConts (penv : PEnv) (onError : ErrPolicy) :
    List (Nat × Nat) → List Value → Option (Nat × Value) →
    List Value × List Nat × Option (Nat × Value)
  | [], results, rej => (results, [], rej)
  | (i, p) :: rest, results, rej =>
      match (penv p).2 with
      | .ok v =>
          let s := runConts penv onError rest (results.set i v) rej
          (s.1, p :: s.2.1, s.2.2)
      | .error e =>
          match handleError results e onError (some i) with
          | .ok results' =>
              let s := runConts penv onError rest results' rej
              (s.1, p :: s.2.1, s.2.2)
          | .error e' =>
              let rej' := match rej with
                          | some x => some x
                          | none => some ((penv p).1, e')
              let s := runConts penv onError rest results rej'
              (s.1, p :: s.2.1, s.2.2)

/-- Resolution time of `Promise.all` when every continuation fulfils: the
latest settlement time among the awaited entries (0 when there are none). -/
def maxTime (penv : PEnv) (es : List (Nat × Nat)) : Nat :=
  es.foldl (fun a e => max a (penv e.2).1) 0

/-- Observable outcome of `emit2`'s asynchronous phase: the final results
array (after every continuation ran), the continuations that ran, and the
overall promise — rejection `(time, error)` or resolution
`(time, final results)`. -/
structure AsyncOut where
  results : List Value
  ran : List Nat
  out : Except (Nat × Value) (Nat × List Value)

/-- `Promise.all(promises).then(() => results)` (line 200) over the
continuations attached at lines 194-199. -/
def emit2Async (penv : PEnv) (onError : ErrPolicy) (results : List Value) :
    AsyncOut :=
  let es := sortByTime penv (promIdx results)
  let s := runConts penv onError es results none
  match s.2.2 with
  | some (t, e) => ⟨s.1, s.2.1, .error (t, e)⟩
  | none => ⟨s.1, s.2.1, .ok (maxTime penv es, s.1)⟩

/-- `emit2(event, args, onError)` from lines 189-201: run the synchronous
dispatcher, then reconcile promise-valued results asynchronously.  (The
source's `if (!results) return results` guard is unreachable because `emit`
always returns an array, which is truthy.) -/
def emit2 (env : Env) (penv : PEnv) (em : Emitter) (event : String)
    (args : JArg) (onError : ErrPolicy) :
    Emitter × List (Nat × Nat) × Except Thrown AsyncOut :=
  let o := emit env em event args onError
  (o.emitter, o.trace, o.out.map (emit2Async penv onError))

/-- Does the continuation attached to entry `e` reject?  (It does exactly
when the underlying promise rejects and the error directive is `undefined`,
making `handleError` rethrow inside the rejection handler.) -/
def contRejects (penv : PEnv) (onError : ErrPolicy) (e : Nat × Nat) : Bool :=
  match (penv e.2).2 with
  | .error _ =>
      match onError with
      | .undef => true
      | _ => false
  | .ok _ => false

/-- The rejection reason of a settled promise outcome (`undefined` for a
fulfilled one; only applied to rejected outcomes). -/
def rejReason : Except Value Value → Value
  | .error e => e
  | .ok _ => (.undef)

/-! ### Auxiliary notions used by the statements -/

/-- Does this registry mutation insert a record with identity `i`? -/
def RegOp.addsId : RegOp → Nat → Bool
  | .addRec _ r _, i => r.rid == i
  | .rmCb _ _, _ => false

/-- Number of occurrences of record identity `i` in a listener array
(0 or 1 in any state reachable through the API, since each registration
allocates a fresh object). -/
def idCount (l : List Rec) (i : Nat) : Nat :=
  l.countP fun r => r.rid == i

/-- The behaviour environment never inserts a record with identity `i`:
record objects are freshly allocated by `addListener`, so listeners can
never re-insert the identity of an already-consumed registration. -/
def envAvoids (env : Env) (i : Nat) : Prop :=
  ∀ c args op, op ∈ (env c args).1 → op.addsId i = false

/-- Every callback returns normally on every argument list (no listener
throws). -/
def envTotal (env : Env) : Prop :=
  ∀ c args, ∃ v, (env c args).2 = Outcome.ret v

/-- A sequence of single-callback `on` registrations on one event. -/
def regSeq (env : Env) (event : String) : List Nat → Emitter → Emitter
  | [], em => em
  | c :: rest, em => regSeq env event rest (onEvent env em event [.fn c] noOpts).1

/-- A behaviour environment in which every callback is inert: no registry
mutations, return `undefined`. -/
def inertEnv : Env := fun _ _ => ([], .ret .undef)

end EvEmit

open EvEmit

/-- **C3.** The Error Policy Resolver table: with the "ignore" marker (`null`)
the error is dropped and an indexed slot is spliced out; with the "as-result"
marker (`false`) the error value itself is stored (at the index, else
appended); with a handler function, a defined return value is stored (at the
index, else appended) while an `undefined` return drops the slot (splice when
indexed, no append otherwise). -/
theorem C3_handleError_table (results : List Value) (error : Value) (i : Nat)
    (f : Value → Value) (hi : i < results.length) :
    handleError results error .ignore none = .ok results
    ∧ handleError results error .ignore (some i) = .ok (results.eraseIdx i)
    ∧ handleError results error .asResult none = .ok (results ++ [error])
    ∧ handleError results error .asResult (some i) = .ok (results.set i error)
    ∧ (f error ≠ Value.undef →
        handleError results error (.handler f) none = .ok (results ++ [f error])
        ∧ handleError results error (.handler f) (some i)
            = .ok (results.set i (f error)))
    ∧ (f error = Value.undef →
        handleError results error (.handler f) none = .ok results
        ∧ handleError results error (.handler f) (some i)
            = .ok (results.eraseIdx i)) :=
  by
    refine ⟨rfl, rfl, rfl, rfl, ?_, ?_⟩
    · intro h
      constructor <;> simp [handleError, setval, h]
    · intro h
      constructor <;> simp [handleError, h]

/-- Witness for C3 at a concrete input. -/
theorem C3_handleError_table_witness :
    (0 : Nat) < [Value.vnull, Value.vbool true].length
    ∧ handleError [Value.vnull, Value.vbool true] (Value.str "e") .ignore none
        = .ok [Value.vnull, Value.vbool true] :=
  ⟨by decide,
   (C3_handleError_table [Value.vnull, Value.vbool true] (Value.str "e") 0
      (fun _ => Value.undef) (by decide)).1⟩

/-- **C1.** The claim states that `emit` on an event with zero snapshotted
listeners returns a distinguished "no listeners" sentinel (`null`).  The
source's `emit` always returns `data.results` (line 182) and initialises
`results` to `[]` (line 170), so on a fresh emitter with zero listeners it
returns the empty results array — there is no code path producing `null`,
contradicting the source's own JSDoc (line 163) and making the `!results`
guard in `emit2` (line 192) unreachable.  This theorem evaluates the code at
the failing input. -/
theorem C1_zero_listeners_empty_not_null :
    emit inertEnv initEmitter "e" (.val .undef) .undef
      = ⟨initEmitter, [], .ok []⟩ := rfl

/-- **C9, counterexample.**  The claim says `setMaxListeners` succeeds
exactly on positive integers and `Infinity`.  The source only checks
`typeof(count) !== 'number' || count < 1`, so the non-integer finite value
`1.5` is accepted. -/
theorem C9_counterexample_fractional_accepted :
    (setMaxListeners initEmitter (.num (.fin (mkRat 3 2)))).isOk = true
    ∧ (mkRat 3 2).isInt = false
    ∧ JNum.fin (mkRat 3 2) ≠ JNum.inf := by
  refine ⟨by decide, by decide, by decide⟩

/-- **C9, amended.**  `setMaxListeners(count)` succeeds exactly when `count`
is a JS number for which `count < 1` is false — that is, any number not
below 1 under JS comparison: positive integers, non-integer numbers ≥ 1,
`Infinity`, and also `NaN` (for which `NaN < 1` is `false`).  On success the
count is stored; every other argument fails with the invalid-count error. -/
theorem C9_amended_numeric_check (em : Emitter) (v : Value) :
    ((∃ em', setMaxListeners em v = .ok em')
        ↔ ∃ n, v = Value.num n ∧ JNum.lt n (.fin 1) = false)
    ∧ (∀ n, v = Value.num n → JNum.lt n (.fin 1) = false →
        setMaxListeners em v = .ok { em with maxListeners := n })
    ∧ ((¬ ∃ n, v = Value.num n ∧ JNum.lt n (.fin 1) = false) →
        setMaxListeners em v = .error (.err (.invalidCount v))) := by
  refine ⟨⟨?_, ?_⟩, ?_, ?_⟩
  · rintro ⟨em', h⟩
    cases v with
    | num n =>
        refine ⟨n, rfl, ?_⟩
        cases hlt : JNum.lt n (.fin 1) with
        | false => rfl
        | true => simp [setMaxListeners, hlt] at h
    | undef => simp [setMaxListeners] at h
    | vnull => simp [setMaxListeners] at h
    | vbool b => simp [setMaxListeners] at h
    | str s => simp [setMaxListeners] at h
    | fn f => simp [setMaxListeners] at h
    | obj o => simp [setMaxListeners] at h
    | prom p => simp [setMaxListeners] at h
  · rintro ⟨n, rfl, hlt⟩
    exact ⟨{ em with maxListeners := n }, by simp [setMaxListeners, hlt]⟩
  · rintro n rfl hlt
    simp [setMaxListeners, hlt]
  · intro hn
    cases v with
    | num n =>
        cases hlt : JNum.lt n (.fin 1) with
        | true => simp [setMaxListeners, hlt]
        | false => exact absurd ⟨n, rfl, hlt⟩ hn
    | undef => rfl
    | vnull => rfl
    | vbool b => rfl
    | str s => rfl
    | fn f => rfl
    | obj o => rfl
    | prom p => rfl

/-- Witness for C9 (amended) at concrete inputs: `Infinity` succeeds. -/
theorem C9_amended_numeric_check_witness :
    setMaxListeners initEmitter (.num .inf)
      = .ok { initEmitter with maxListeners := .inf } :=
  (C9_amended_numeric_check initEmitter (.num .inf)).2.1 .inf rfl rfl

/-- Names already in the accumulator stay in the result of the constructor's
duplicate-checking fold. -/
theorem mkValidEvents_mem :
    ∀ (l : List String) (idx : Nat) (acc res : List String),
      mkValidEvents l idx acc = .ok res → ∀ x ∈ acc, x ∈ res := by
  intro l
  induction l with
  | nil =>
      intro idx acc res h x hx
      simp only [mkValidEvents] at h
      cases h
      exact hx
  | cons e rest ih =>
      intro idx acc res h x hx
      by_cases he : e ∈ acc
      · simp [mkValidEvents, he] at h
      · simp only [mkValidEvents, if_neg he] at h
        exact ih _ _ _ h x (List.mem_append.mpr (Or.inl hx))

/-- **C8.** On an emitter constructed with a non-empty allow-list, every
register, remove, or emit operation naming an event outside `_validEvents`
fails with the invalid-event-name error (and leaves the emitter untouched),
while `newListener` and `removeListener` are always members of the list. -/
theorem C8_allowlist_enforced (env : Env) (evs : List String) (em : Emitter)
    (hne : evs ≠ []) (hmk : mkEmitter evs = .ok em) (x : String)
    (hx : x ∉ em.validEvents) (cbs : List Value) (opts : AddOpts)
    (args : JArg) (onError : ErrPolicy) :
    addListener env em x cbs opts = (em, [], .error (.err (.invalidEventName x)))
    ∧ removeListener env em x cbs = (em, [], .error (.err (.invalidEventName x)))
    ∧ emit env em x args onError = ⟨em, [], .error (.err (.invalidEventName x))⟩
    ∧ "newListener" ∈ em.validEvents ∧ "removeListener" ∈ em.validEvents := by
  have hem : ∃ ve, mkValidEvents evs 0 ["newListener", "removeListener"] = .ok ve
      ∧ em = { initEmitter with validEvents := ve } := by
    rw [mkEmitter, if_neg hne] at hmk
    cases h : mkValidEvents evs 0 ["newListener", "removeListener"] with
    | error t => rw [h] at hmk; simp [Except.map] at hmk
    | ok ve =>
        rw [h] at hmk
        simp only [Except.map] at hmk
        cases hmk
        exact ⟨ve, rfl, rfl⟩
  obtain ⟨ve, hve, rfl⟩ := hem
  have hnl : "newListener" ∈ ve :=
    mkValidEvents_mem _ _ _ _ hve _ (by simp)
  have hrl : "removeListener" ∈ ve :=
    mkValidEvents_mem _ _ _ _ hve _ (by simp)
  have hveok : ve ≠ [] := by
    intro h
    rw [h] at hnl
    cases hnl
  have hlst : Emitter.listeners { initEmitter with validEvents := ve } x
      = .error (.invalidEventName x) := by
    simp only [Emitter.listeners]
    rw [if_pos]
    exact ⟨hveok, hx⟩
  exact ⟨by simp [addListener, hlst], by simp [removeListener, hlst],
         by simp [emit, hlst], hnl, hrl⟩

/-- Witness for C8 at a concrete allow-list `("a")` and the outside name
`"b"`: emitting `"b"` fails with the invalid-event-name error. -/
theorem C8_allowlist_enforced_witness :
    emit inertEnv { initEmitter with validEvents := ["newListener", "removeListener", "a"] }
        "b" (.val .undef) .undef
      = ⟨{ initEmitter with validEvents := ["newListener", "removeListener", "a"] },
         [], .error (.err (.invalidEventName "b"))⟩ :=
  (C8_allowlist_enforced inertEnv ["a"] _ (by simp) rfl "b" (by decide) [] noOpts
    (.val .undef) .undef).2.2.1

/-- Unfolding the dispatch loop on a returning listener. -/
theorem emitLoop_cons_ret {env : Env} {onError : ErrPolicy} {event : String}
    {args : List Value} {r : Rec} {v : Value}
    (rest : List Rec) (evs : String → List Rec) (results : List Value)
    (trace : List (Nat × Nat)) (hv : (env r.callback args).2 = .ret v) :
    emitLoop env onError event args (r :: rest) evs results trace
      = emitLoop env onError event args rest (stepEvs env event args evs r)
          (results ++ [v]) (trace ++ [(r.rid, r.callback)]) := by
  simp only [emitLoop, hv]

/-- Unfolding the dispatch loop on a throwing listener under the `undefined`
directive: the loop aborts with that error. -/
theorem emitLoop_cons_thr_undef {env : Env} {event : String}
    {args : List Value} {r : Rec} {e : Value}
    (rest : List Rec) (evs : String → List Rec) (results : List Value)
    (trace : List (Nat × Nat)) (he : (env r.callback args).2 = .thr e) :
    emitLoop env .undef event args (r :: rest) evs results trace
      = ⟨stepEvs env event args evs r, trace ++ [(r.rid, r.callback)],
         .error e⟩ := by
  simp only [emitLoop, he, handleError]

/-- When no snapshotted listener throws, the dispatch loop invokes every
snapshot record exactly once, in snapshot order, regardless of the registry
mutations the listeners perform. -/
theorem emitLoop_total_trace (env : Env) (onError : ErrPolicy) (event : String)
    (args : List Value) :
    ∀ (snap : List Rec) (evs : String → List Rec) (results : List Value)
      (trace : List (Nat × Nat)),
      (∀ x ∈ snap, ∃ v, (env x.callback args).2 = .ret v) →
      ∃ E res, emitLoop env onError event args snap evs results trace
        = ⟨E, trace ++ snap.map (fun x => (x.rid, x.callback)), .ok res⟩ := by
  intro snap
  induction snap with
  | nil =>
      intro evs results trace _
      exact ⟨evs, results, by simp [emitLoop]⟩
  | cons r rest ih =>
      intro evs results trace h
      obtain ⟨v, hv⟩ := h r (List.mem_cons_self _ _)
      obtain ⟨E, res, hE⟩ :=
        ih (stepEvs env event args evs r) (results ++ [v])
          (trace ++ [(r.rid, r.callback)])
          (fun x hx => h x (List.mem_cons_of_mem _ hx))
      refine ⟨E, res, ?_⟩
      rw [emitLoop_cons_ret rest evs results trace hv, hE]
      simp

/-- A throwing listener under the `undefined` directive aborts the loop:
the listeners before it and the thrower itself are invoked, nothing after. -/
theorem emitLoop_abort (env : Env) (event : String) (args : List Value)
    {r : Rec} {e : Value} (l₂ : List Rec)
    (he : (env r.callback args).2 = .thr e) :
    ∀ (l₁ : List Rec) (evs : String → List Rec) (results : List Value)
      (trace : List (Nat × Nat)),
      (∀ x ∈ l₁, ∃ v, (env x.callback args).2 = .ret v) →
      ∃ E, emitLoop env .undef event args (l₁ ++ r :: l₂) evs results trace
        = ⟨E, trace ++ (l₁ ++ [r]).map (fun x => (x.rid, x.callback)),
           .error e⟩ := by
  intro l₁
  induction l₁ with
  | nil =>
      intro evs results trace _
      exact ⟨stepEvs env event args evs r, by
        simp [emitLoop_cons_thr_undef l₂ evs results trace he]⟩
  | cons x rest ih =>
      intro evs results trace h
      obtain ⟨v, hv⟩ := h x (List.mem_cons_self _ _)
      obtain ⟨E, hE⟩ :=
        ih (stepEvs env event args evs x) (results ++ [v])
          (trace ++ [(x.rid, x.callback)])
          (fun y hy => h y (List.mem_cons_of_mem _ hy))
      refine ⟨E, ?_⟩
      rw [List.cons_append, emitLoop_cons_ret (rest ++ r :: l₂) evs results trace hv,
          hE]
      simp

/-- **C2.** With the error directive unset (`undefined`), if the listeners
before position `k` of the snapshot return and the `k`-th snapshotted
listener throws `e`, then `emit` surfaces exactly `e` to the caller, the
invocation trace stops at the thrower (no later snapshot listener runs),
and no results list is produced (the already-collected results are
discarded: the call's outcome is the error alone). -/
theorem C2_undef_policy_aborts (env : Env) (em : Emitter) (event : String)
    (args : JArg) (l₁ : List Rec) (r : Rec) (l₂ : List Rec) (e : Value)
    (hval : em.validEvents = [])
    (hsnap : em.events event = l₁ ++ r :: l₂)
    (h₁ : ∀ x ∈ l₁, ∃ v, (env x.callback (normArgs args)).2 = .ret v)
    (hr : (env r.callback (normArgs args)).2 = .thr e) :
    (emit env em event args .undef).out = .error (.val e)
    ∧ (emit env em event args .undef).trace
        = (l₁ ++ [r]).map (fun x => (x.rid, x.callback)) := by
  have hlst : em.listeners event = .ok (em.events event) := by
    simp [Emitter.listeners, hval]
  obtain ⟨E, hE⟩ := emitLoop_abort env event (normArgs args) l₂ hr l₁ em.events [] [] h₁
  have hem : emit env em event args .undef
      = ⟨{ em with events := E },
         (l₁ ++ [r]).map (fun x => (x.rid, x.callback)), .error (.val e)⟩ := by
    simp only [emit, hlst, hsnap, hE]
    rfl
  rw [hem]
  exact ⟨rfl, rfl⟩

/-- Witness for C2: three listeners `L1 → "a"`, `L2 → throw "e"`,
`L3 → "b"`; `emit` throws `"e"` and only L1, L2 are invoked. -/
theorem C2_undef_policy_aborts_witness :
    (emit
        (fun c _ =>
          if c = 0 then ([], .ret (.str "a"))
          else if c = 1 then ([], .thr (.str "e"))
          else ([], .ret (.str "b")))
        { initEmitter with
            events := updEvs (fun _ => [])
              "x" [⟨0, 0, .inf⟩, ⟨1, 1, .inf⟩, ⟨2, 2, .inf⟩] }
        "x" (.val .undef) .undef).out = .error (.val (.str "e"))
    ∧ (emit
        (fun c _ =>
          if c = 0 then ([], .ret (.str "a"))
          else if c = 1 then ([], .thr (.str "e"))
          else ([], .ret (.str "b")))
        { initEmitter with
            events := updEvs (fun _ => [])
              "x" [⟨0, 0, .inf⟩, ⟨1, 1, .inf⟩, ⟨2, 2, .inf⟩] }
        "x" (.val .undef) .undef).trace = [(0, 0), (1, 1)] := by
  have h := C2_undef_policy_aborts
    (fun c _ =>
      if c = 0 then ([], .ret (.str "a"))
      else if c = 1 then ([], .thr (.str "e"))
      else ([], .ret (.str "b")))
    { initEmitter with
        events := updEvs (fun _ => [])
          "x" [⟨0, 0, .inf⟩, ⟨1, 1, .inf⟩, ⟨2, 2, .inf⟩] }
    "x" (.val .undef) [⟨0, 0, .inf⟩] ⟨1, 1, .inf⟩ [⟨2, 2, .inf⟩] (.str "e")
    rfl (by simp [updEvs])
    (by
      intro x hx
      simp only [List.mem_singleton] at hx
      subst hx
      exact ⟨.str "a", rfl⟩)
    rfl
  exact ⟨h.1, h.2.trans rfl⟩

/-- Effect of a single-callback `addListener` call when the internal
`newListener` event has no listeners: the log shows the internal
notification, and the only registry change is the insertion of one fresh
record into the target event's array (back, or front when `prepend`). -/
theorem addListener_single (env : Env) (em : Emitter) (event : String)
    (c : Nat) (opts : AddOpts) (hval : em.validEvents = [])
    (hnl : em.events "newListener" = []) :
    ∃ em', addListener env em event [.fn c] opts
        = (em', [("newListener", [Value.str event, .fn c, opts.ov])], .ok ())
      ∧ em'.events = updEvs em.events event
          (if opts.front
           then ⟨em.fresh, c, opts.count.getD .inf⟩ :: em.events event
           else em.events event ++ [⟨em.fresh, c, opts.count.getD .inf⟩])
      ∧ em'.validEvents = [] ∧ em'.fresh = em.fresh + 1
      ∧ em'.maxListeners = em.maxListeners := by
  have hlst : em.listeners event = .ok (em.events event) := by
    simp [Emitter.listeners, hval]
  have hemit : emit env em "newListener"
      (.arrv [Value.str event, .fn c, opts.ov]) .undef = ⟨em, [], .ok []⟩ := by
    have h2 : em.listeners "newListener" = .ok [] := by
      simp [Emitter.listeners, hval, hnl]
    simp only [emit, h2]
    rfl
  have hloop : addLoop env event opts [Value.fn c] 0 em []
      = ({ em with
             events := updEvs em.events event
               (if opts.front
                then ⟨em.fresh, c, opts.count.getD .inf⟩ :: em.events event
                else em.events event ++ [⟨em.fresh, c, opts.count.getD .inf⟩]),
             fresh := em.fresh + 1 },
         [("newListener", [Value.str event, .fn c, opts.ov])], .ok ()) := by
    simp only [addLoop, hemit]
    rfl
  simp only [addListener, hlst, hloop]
  refine ⟨_, rfl, ?_, ?_, ?_, ?_⟩ <;>
    (split <;> (try split) <;> first | exact hval | rfl)

/-- Folding single-callback `on` registrations (no `prepend`) appends the
callbacks to the event's listener array in call order; the `newListener`
channel stays empty and the allow-list stays empty. -/
theorem regSeq_spec (env : Env) (event : String) (hev : event ≠ "newListener") :
    ∀ (cbs : List Nat) (em : Emitter),
      em.validEvents = [] → em.events "newListener" = [] →
      (regSeq env event cbs em).validEvents = []
      ∧ (regSeq env event cbs em).events "newListener" = []
      ∧ ((regSeq env event cbs em).events event).map Rec.callback
          = (em.events event).map Rec.callback ++ cbs := by
  intro cbs
  induction cbs with
  | nil =>
      intro em hval hnl
      exact ⟨hval, hnl, by simp [regSeq]⟩
  | cons c rest ih =>
      intro em hval hnl
      obtain ⟨em', heq, hevents, hval', hfresh, hmax⟩ :=
        addListener_single env em event c { noOpts with count := some .inf }
          hval hnl
      have honce : (onEvent env em event [.fn c] noOpts).1 = em' := by
        simp only [onEvent]
        rw [heq]
      have hnl' : em'.events "newListener" = [] := by
        rw [hevents, updEvs]
        simp [Ne.symm hev, hnl]
      have hstep : em'.events event
          = em.events event ++ [⟨em.fresh, c, JNum.inf⟩] := by
        rw [hevents, updEvs]
        simp [noOpts]
      obtain ⟨h1, h2, h3⟩ := ih em' hval' hnl'
      refine ⟨?_, ?_, ?_⟩
      · simpa [regSeq, honce] using h1
      · simpa [regSeq, honce] using h2
      · rw [regSeq, honce, h3, hstep]
        simp

/-- **C5.** For a sequence of `on` registrations on one event, `emit`
invokes the listeners in exact insertion order; and because `emit` iterates
a shallow-copy snapshot taken at call start, the invocation trace is exactly
that call-start listener sequence — even though the behaviour environment
may add or remove arbitrary listeners during dispatch, none of them joins
or leaves the call's iteration. -/
theorem C5_insertion_order_snapshot (env : Env) (em : Emitter)
    (event : String) (cbs : List Nat) (args : JArg) (onError : ErrPolicy)
    (hval : em.validEvents = []) (hempty : em.events event = [])
    (hnl : em.events "newListener" = []) (hev : event ≠ "newListener")
    (htot : envTotal env) :
    (((regSeq env event cbs em).events event).map Rec.callback = cbs)
    ∧ ((emit env (regSeq env event cbs em) event args onError).trace
        = ((regSeq env event cbs em).events event).map
            (fun x => (x.rid, x.callback)))
    ∧ (((emit env (regSeq env event cbs em) event args onError).trace).map
          Prod.snd = cbs) := by
  obtain ⟨hval', _, horder⟩ := regSeq_spec env event hev cbs em hval hnl
  rw [hempty] at horder
  simp only [List.map_nil, List.nil_append] at horder
  have hlst : (regSeq env event cbs em).listeners event
      = .ok ((regSeq env event cbs em).events event) := by
    simp [Emitter.listeners, hval']
  have htr : (emit env (regSeq env event cbs em) event args onError).trace
      = ((regSeq env event cbs em).events event).map
          (fun x => (x.rid, x.callback)) := by
    obtain ⟨E, res, hE⟩ := emitLoop_total_trace env onError event (normArgs args)
      ((regSeq env event cbs em).events event)
      (regSeq env event cbs em).events [] []
      (fun x _ => htot x.callback (normArgs args))
    simp only [emit, hlst, hE]
    exact List.nil_append _
  refine ⟨horder, htr, ?_⟩
  rw [htr, List.map_map]
  exact horder

/-- Witness for C5: two `on` registrations fire in insertion order even
though the first listener removes the second and registers a new one during
dispatch. -/
theorem C5_insertion_order_snapshot_witness :
    ((emit
        (fun c _ =>
          if c = 7 then
            ([RegOp.rmCb "x" 8, RegOp.addRec "x" ⟨99, 9, .inf⟩ false],
             .ret .undef)
          else ([], .ret .undef))
        (regSeq
          (fun c _ =>
            if c = 7 then
              ([RegOp.rmCb "x" 8, RegOp.addRec "x" ⟨99, 9, .inf⟩ false],
               .ret .undef)
            else ([], .ret .undef))
          "x" [7, 8] initEmitter)
        "x" (.val .undef) .ignore).trace).map Prod.snd = [7, 8] :=
  (C5_insertion_order_snapshot
    (fun c _ =>
      if c = 7 then
        ([RegOp.rmCb "x" 8, RegOp.addRec "x" ⟨99, 9, .inf⟩ false],
         .ret .undef)
      else ([], .ret .undef))
    initEmitter "x" [7, 8] (.val .undef) .ignore rfl rfl rfl (by decide)
    (fun c args => ⟨.undef, by
      by_cases h : c = 7 <;> simp [h]⟩)).2.2


/-- `findIndex` misses when no record's callback matches. -/
theorem findIdx_none_of_no_match (c : Nat) :
    ∀ (l : List Rec) (i : Nat), (∀ r ∈ l, r.callback ≠ c) →
      l.findIdx? (fun r => r.callback == c) i = none := by
  intro l
  induction l with
  | nil => intro i _; rfl
  | cons x rest ih =>
      intro i h
      have hx : (x.callback == c) = false := by
        simp only [beq_eq_false_iff_ne, ne_eq]
        exact h x (List.mem_cons_self _ _)
      rw [List.findIdx?_cons, hx]
      simp only [Bool.false_eq_true, if_false]
      exact ih (i + 1) fun r hr => h r (List.mem_cons_of_mem _ hr)

/-- `findIndex` returns the position of the first matching record. -/
theorem findIdx_first_match (c : Nat) (r : Rec) (l₂ : List Rec)
    (hr : r.callback = c) :
    ∀ (l₁ : List Rec) (i : Nat), (∀ x ∈ l₁, x.callback ≠ c) →
      (l₁ ++ r :: l₂).findIdx? (fun x => x.callback == c) i
        = some (i + l₁.length) := by
  intro l₁
  induction l₁ with
  | nil =>
      intro i _
      rw [List.nil_append, List.findIdx?_cons]
      simp [hr]
  | cons x rest ih =>
      intro i h
      have hx : (x.callback == c) = false := by
        simp only [beq_eq_false_iff_ne, ne_eq]
        exact h x (List.mem_cons_self _ _)
      rw [List.cons_append, List.findIdx?_cons, hx]
      simp only [Bool.false_eq_true, if_false]
      rw [ih (i + 1) fun y hy => h y (List.mem_cons_of_mem _ hy)]
      congr 1
      simp [List.length_cons]
      omega

/-- `splice(pos, 1)` at the position of the first match drops exactly that
record. -/
theorem eraseIdx_at_append (r : Rec) (l₂ : List Rec) :
    ∀ (l₁ : List Rec), (l₁ ++ r :: l₂).eraseIdx l₁.length = l₁ ++ l₂ := by
  intro l₁
  induction l₁ with
  | nil => rfl
  | cons x rest ih => simp [List.eraseIdx, ih]

/-- **C7.** `removeListener` removes only the first record in left-to-right
scan order whose callback is reference-identical to the given one (records
after it — in particular a duplicate registration of the same callback —
survive, so one call on a twice-registered callback leaves exactly one
registration); after a successful removal exactly one internal
`removeListener` event carrying `(eventName, callback)` is emitted; and when
no record matches, the call succeeds without any change or notification. -/
theorem C7_remove_first_match (env : Env) (em : Emitter) (event : String)
    (c : Nat) (hval : em.validEvents = [])
    (hrl : em.events "removeListener" = []) (hev : event ≠ "removeListener") :
    ((∀ r ∈ em.events event, r.callback ≠ c) →
        removeListener env em event [.fn c] = (em, [], .ok ()))
    ∧ (∀ l₁ r l₂, em.events event = l₁ ++ r :: l₂ → r.callback = c →
        (∀ x ∈ l₁, x.callback ≠ c) →
        ∃ em', removeListener env em event [.fn c]
            = (em', [("removeListener", [Value.str event, .fn c])], .ok ())
          ∧ em'.events event = l₁ ++ l₂
          ∧ (∀ e', e' ≠ event → em'.events e' = em.events e')
          ∧ ∀ x ∈ l₂, x ∈ em'.events event) := by
  have hlst : em.listeners event = .ok (em.events event) := by
    simp [Emitter.listeners, hval]
  constructor
  · intro h
    simp only [removeListener, hlst, rmLoop, findIdx_none_of_no_match c _ 0 h]
  · intro l₁ r l₂ hsnap hr h₁
    have hfind : (em.events event).findIdx? (fun x => x.callback == c)
        = some l₁.length := by
      rw [hsnap, findIdx_first_match c r l₂ hr l₁ 0 h₁]
      simp
    have herase : (em.events event).eraseIdx l₁.length = l₁ ++ l₂ := by
      rw [hsnap]
      exact eraseIdx_at_append r l₂ l₁
    have hemit : emit env { em with events := updEvs em.events event ((em.events event).eraseIdx l₁.length) } "removeListener" (.arrv [Value.str event, .fn c]) .undef = ⟨{ em with events := updEvs em.events event ((em.events event).eraseIdx l₁.length) }, [], .ok []⟩ := by
      have h2 : Emitter.listeners { em with events := updEvs em.events event ((em.events event).eraseIdx l₁.length) } "removeListener" = .ok [] := by
        simp only [Emitter.listeners, hval]
        rw [if_neg (by simp)]
        simp only [updEvs]
        rw [if_neg (Ne.symm hev)]
        exact congrArg Except.ok hrl
      simp only [emit, h2]
      rfl
    refine ⟨{ em with events := updEvs em.events event ((em.events event).eraseIdx l₁.length) }, ?_, ?_, ?_, ?_⟩
    · simp only [removeListener, hlst, rmLoop, hfind, hemit]
      rw [List.nil_append]
    · simp only [updEvs, if_pos rfl]
      exact herase
    · intro e' he'
      simp only [updEvs]
      rw [if_neg he']
    · intro x hx
      simp only [updEvs, if_pos rfl, herase]
      exact List.mem_append.mpr (Or.inr hx)

/-- Witness for C7: a callback registered twice; one `removeListener` call
removes only the earlier record and emits one internal notification. -/
theorem C7_remove_first_match_witness :
    (removeListener inertEnv
        { initEmitter with
            events := updEvs (fun _ => []) "x" [⟨0, 5, .inf⟩, ⟨1, 5, .inf⟩] }
        "x" [.fn 5]).2.1
      = [("removeListener", [Value.str "x", .fn 5])]
    ∧ ((removeListener inertEnv
        { initEmitter with
            events := updEvs (fun _ => []) "x" [⟨0, 5, .inf⟩, ⟨1, 5, .inf⟩] }
        "x" [.fn 5]).1.events "x")
      = [⟨1, 5, .inf⟩] := by
  obtain ⟨em', heq, hx, _, _⟩ :=
    (C7_remove_first_match inertEnv
      { initEmitter with
          events := updEvs (fun _ => []) "x" [⟨0, 5, .inf⟩, ⟨1, 5, .inf⟩] }
      "x" 5 rfl (by simp [updEvs]) (by decide)).2
      [] ⟨0, 5, .inf⟩ [⟨1, 5, .inf⟩] (by simp [updEvs]) rfl (by simp)
  rw [heq]
  exact ⟨rfl, hx⟩

/-- `handleError` either rethrows (exactly under the `undefined` directive)
or succeeds. -/
theorem handleError_cases (results : List Value) (e : Value)
    (onError : ErrPolicy) (idx : Option Nat) :
    (onError = .undef ∧ handleError results e onError idx = .error e)
    ∨ ∃ res', handleError results e onError idx = .ok res' := by
  cases onError with
  | undef => exact Or.inl ⟨rfl, rfl⟩
  | ignore => exact Or.inr ⟨_, rfl⟩
  | asResult => exact Or.inr ⟨_, rfl⟩
  | handler f =>
      by_cases h : f e = Value.undef
      · refine Or.inr ⟨(match idx with
          | some i => results.eraseIdx i
          | none => results), ?_⟩
        simp only [handleError, h, ne_eq, not_true_eq_false, if_false]
      · refine Or.inr ⟨setval results idx (f e), ?_⟩
        simp only [handleError, ne_eq, h, not_false_eq_true, if_true]

/-- Once `Promise.all` has a recorded rejection, the remaining continuations
still run (their promises appear in the ran-list) and the recorded first
rejection is unchanged. -/
theorem runConts_keep (penv : PEnv) (onError : ErrPolicy) (z : Nat × Value) :
    ∀ (entries : List (Nat × Nat)) (results : List Value),
      (runConts penv onError entries results (some z)).2.1
          = entries.map Prod.snd
      ∧ (runConts penv onError entries results (some z)).2.2 = some z := by
  intro entries
  induction entries with
  | nil => intro results; exact ⟨rfl, rfl⟩
  | cons e rest ih =>
      intro results
      obtain ⟨i, p⟩ := e
      cases hp : (penv p).2 with
      | ok v =>
          refine ⟨?_, ?_⟩
          · simp only [runConts, hp, List.map_cons]
            exact congrArg (p :: ·) (ih (results.set i v)).1
          · simp only [runConts, hp]
            exact (ih (results.set i v)).2
      | error err =>
          rcases handleError_cases results err onError (some i) with
            ⟨_, hhe⟩ | ⟨res', hhe⟩
          · refine ⟨?_, ?_⟩
            · simp only [runConts, hp, hhe, List.map_cons]
              exact congrArg (p :: ·) (ih results).1
            · simp only [runConts, hp, hhe]
              exact (ih results).2
          · refine ⟨?_, ?_⟩
            · simp only [runConts, hp, hhe, List.map_cons]
              exact congrArg (p :: ·) (ih res').1
            · simp only [runConts, hp, hhe]
              exact (ih res').2

/-- When no continuation rejects, every continuation runs and no rejection
is recorded. -/
theorem runConts_all_ok (penv : PEnv) (onError : ErrPolicy) :
    ∀ (entries : List (Nat × Nat)) (results : List Value)
      (rej : Option (Nat × Value)),
      (∀ x ∈ entries, contRejects penv onError x = false) →
      (runConts penv onError entries results rej).2.1 = entries.map Prod.snd
      ∧ (runConts penv onError entries results rej).2.2 = rej := by
  intro entries
  induction entries with
  | nil => intro results rej _; exact ⟨rfl, rfl⟩
  | cons e rest ih =>
      intro results rej h
      obtain ⟨i, p⟩ := e
      have hrest := fun x hx => h x (List.mem_cons_of_mem _ hx)
      cases hp : (penv p).2 with
      | ok v =>
          refine ⟨?_, ?_⟩
          · simp only [runConts, hp, List.map_cons]
            exact congrArg (p :: ·) (ih (results.set i v) rej hrest).1
          · simp only [runConts, hp]
            exact (ih (results.set i v) rej hrest).2
      | error err =>
          have hcr := h (i, p) (List.mem_cons_self _ _)
          have hond : onError ≠ ErrPolicy.undef := by
            intro hh
            subst hh
            simp [contRejects, hp] at hcr
          rcases handleError_cases results err onError (some i) with
            ⟨h1, _⟩ | ⟨res', hhe⟩
          · exact absurd h1 hond
          · refine ⟨?_, ?_⟩
            · simp only [runConts, hp, hhe, List.map_cons]
              exact congrArg (p :: ·) (ih res' rej hrest).1
            · simp only [runConts, hp, hhe]
              exact (ih res' rej hrest).2

/-- The first rejecting continuation (in settlement order) determines the
recorded rejection: its settlement time and its rejection reason; every
later continuation still runs. -/
theorem runConts_first_reject (penv : PEnv) (onError : ErrPolicy)
    (x : Nat × Nat) (l₂ : List (Nat × Nat))
    (hx : contRejects penv onError x = true) :
    ∀ (l₁ : List (Nat × Nat)) (results : List Value),
      (∀ y ∈ l₁, contRejects penv onError y = false) →
      (runConts penv onError (l₁ ++ x :: l₂) results none).2.1
          = (l₁ ++ x :: l₂).map Prod.snd
      ∧ (runConts penv onError (l₁ ++ x :: l₂) results none).2.2
          = some ((penv x.2).1, rejReason (penv x.2).2) := by
  intro l₁
  induction l₁ with
  | nil =>
      intro results _
      obtain ⟨i, p⟩ := x
      cases hp : (penv p).2 with
      | ok v => simp [contRejects, hp] at hx
      | error err =>
          cases onError with
          | undef =>
              have hhe : handleError results err ErrPolicy.undef (some i)
                  = .error err := rfl
              refine ⟨?_, ?_⟩
              · simp only [List.nil_append, runConts, hp, hhe, List.map_cons]
                exact congrArg (p :: ·)
                  (runConts_keep penv .undef _ l₂ results).1
              · simp only [List.nil_append, runConts, hp, hhe]
                have := (runConts_keep penv .undef
                  ((penv p).1, err) l₂ results).2
                rw [this]
                simp [rejReason, hp]
          | ignore => simp [contRejects, hp] at hx
          | asResult => simp [contRejects, hp] at hx
          | handler f => simp [contRejects, hp] at hx
  | cons y rest ih =>
      intro results h
      obtain ⟨i, p⟩ := y
      have hy := h (i, p) (List.mem_cons_self _ _)
      have hrest := fun z hz => h z (List.mem_cons_of_mem _ hz)
      cases hp : (penv p).2 with
      | ok v =>
          refine ⟨?_, ?_⟩
          · simp only [List.cons_append, runConts, hp, List.map_cons]
            exact congrArg (p :: ·) (ih (results.set i v) hrest).1
          · simp only [List.cons_append, runConts, hp]
            exact (ih (results.set i v) hrest).2
      | error err =>
          have hond : onError ≠ ErrPolicy.undef := by
            intro hh
            subst hh
            simp [contRejects, hp] at hy
          rcases handleError_cases results err onError (some i) with
            ⟨h1, _⟩ | ⟨res', hhe⟩
          · exact absurd h1 hond
          · refine ⟨?_, ?_⟩
            · simp only [List.cons_append, runConts, hp, hhe, List.map_cons]
              exact congrArg (p :: ·) (ih res' hrest).1
            · simp only [List.cons_append, runConts, hp, hhe]
              exact (ih res' hrest).2

/-- **C6, counterexample.**  Two listeners return promises: entry 0 settles
(fulfilled) at time 5, entry 1 rejects at time 1; directive `undefined`
(rejections propagate).  The claim says the overall failure surfaces only
after all other pending entries have been awaited, i.e. not before time 5;
but `Promise.all` is fail-fast: the overall promise rejects at time 1,
before the sibling has settled. -/
theorem C6_counterexample_failfast_before_all_settled :
    ((emit2
        (fun c _ => ([], .ret (.prom c)))
        (fun p => if p = 0 then (5, .ok (.str "v"))
                  else (1, .error (.str "boom")))
        { initEmitter with
            events := updEvs (fun _ => []) "x" [⟨0, 0, .inf⟩, ⟨1, 1, .inf⟩] }
        "x" (.val .undef) .undef).2.2.map fun a => a.out)
      = .ok (.error (1, Value.str "boom"))
    ∧ ((fun p => if p = 0 then (5, Except.ok (Value.str "v"))
                 else (1, Except.error (Value.str "boom"))) 0).1 = 5
    ∧ ¬ (5 ≤ 1) := by
  exact ⟨rfl, rfl, by decide⟩

/-- **C6, amended.**  For an `emit2` call whose underlying `emit` produced
the results list `results`: when no pending entry's rejection is propagated
by the error policy, the returned handle resolves to the reconciled sequence
at the latest settlement time — only once every pending entry has settled —
and every continuation runs.  But when some entry's rejection is propagated,
the overall failure carries the settlement time and reason of the *first*
propagated rejection in settlement order: `Promise.all` is fail-fast, so the
failure does *not* wait for later-settling pending entries; the sibling
continuations are nevertheless not cancelled (every continuation still
appears in the ran-list). -/
theorem C6_amended_failfast (env : Env) (penv : PEnv) (em : Emitter)
    (event : String) (args : JArg) (onError : ErrPolicy)
    (results : List Value)
    (hout : (emit env em event args onError).out = .ok results) :
    ((∀ x ∈ sortByTime penv (promIdx results),
        contRejects penv onError x = false) →
      (emit2 env penv em event args onError).2.2
        = .ok ⟨(runConts penv onError (sortByTime penv (promIdx results))
                  results none).1,
               (sortByTime penv (promIdx results)).map Prod.snd,
               .ok (maxTime penv (sortByTime penv (promIdx results)),
                    (runConts penv onError (sortByTime penv (promIdx results))
                      results none).1)⟩)
    ∧ (∀ l₁ x l₂, sortByTime penv (promIdx results) = l₁ ++ x :: l₂ →
        (∀ y ∈ l₁, contRejects penv onError y = false) →
        contRejects penv onError x = true →
        (emit2 env penv em event args onError).2.2
          = .ok ⟨(runConts penv onError (sortByTime penv (promIdx results))
                    results none).1,
                 (sortByTime penv (promIdx results)).map Prod.snd,
                 .error ((penv x.2).1, rejReason (penv x.2).2)⟩) := by
  have hemit2 : (emit2 env penv em event args onError).2.2
      = .ok (emit2Async penv onError results) := by
    simp only [emit2]
    rw [hout]
    rfl
  constructor
  · intro hall
    rw [hemit2]
    obtain ⟨hm1, hm2⟩ := runConts_all_ok penv onError
      (sortByTime penv (promIdx results)) results none hall
    simp only [emit2Async, hm2, hm1]
  · intro l₁ x l₂ hsplit h₁ hx
    rw [hemit2]
    obtain ⟨hm1, hm2⟩ := runConts_first_reject penv onError x l₂ hx l₁
      results h₁
    simp only [emit2Async, hsplit, hm2, hm1]

/-- Witness for C6 (amended), success branch at a concrete input: one
pending entry settling at time 3; the handle resolves at time 3 with the
reconciled sequence and the single continuation ran. -/
theorem C6_amended_failfast_witness :
    (emit2
        (fun c _ => ([], .ret (.prom c)))
        (fun _ => (3, .ok (.str "v")))
        { initEmitter with events := updEvs (fun _ => []) "x" [⟨0, 0, .inf⟩] }
        "x" (.val .undef) .undef).2.2
      = .ok ⟨(runConts (fun _ => (3, .ok (.str "v"))) .undef
                (sortByTime (fun _ => (3, .ok (.str "v")))
                  (promIdx [.prom 0])) [.prom 0] none).1,
             (sortByTime (fun _ => (3, .ok (.str "v")))
               (promIdx [.prom 0])).map Prod.snd,
             .ok (maxTime (fun _ => (3, .ok (.str "v")))
                    (sortByTime (fun _ => (3, .ok (.str "v")))
                      (promIdx [.prom 0])),
                  (runConts (fun _ => (3, .ok (.str "v"))) .undef
                    (sortByTime (fun _ => (3, .ok (.str "v")))
                      (promIdx [.prom 0])) [.prom 0] none).1)⟩ :=
  (C6_amended_failfast
    (fun c _ => ([], .ret (.prom c)))
    (fun _ => (3, .ok (.str "v")))
    { initEmitter with events := updEvs (fun _ => []) "x" [⟨0, 0, .inf⟩] }
    "x" (.val .undef) .undef [.prom 0] rfl).1 (fun _ _ => rfl)

/-- The count decrement preserves record identities, hence occurrence
counts. -/
theorem idCount_decCount (i j : Nat) :
    ∀ l : List Rec, idCount (decCount l j) i = idCount l i := by
  intro l
  induction l with
  | nil => rfl
  | cons x rest ih =>
      simp only [decCount, List.map_cons, idCount, List.countP_cons] at *
      by_cases h : x.rid = j
      · simp [h, ih]
      · simp [h, ih]

/-- Removing the first record with one identity never increases the count of
another. -/
theorem idCount_removeFirstId_le (i j : Nat) :
    ∀ l : List Rec, idCount (removeFirstId l j) i ≤ idCount l i := by
  intro l
  induction l with
  | nil => exact Nat.le_refl _
  | cons x rest ih =>
      simp only [removeFirstId]
      by_cases h : x.rid = j
      · simp only [if_pos h, idCount, List.countP_cons]
        exact Nat.le_add_right _ _
      · simp only [if_neg h, idCount, List.countP_cons] at *
        exact Nat.add_le_add_right ih _

/-- Unfolding the occurrence count over a cons cell. -/
theorem idCount_cons (x : Rec) (rest : List Rec) (i : Nat) :
    idCount (x :: rest) i = idCount rest i + (if x.rid = i then 1 else 0) := by
  simp only [idCount, List.countP_cons]
  by_cases h : x.rid = i <;> simp [h]

/-- Removing the first record with identity `i` from a list holding at most
one such record leaves none. -/
theorem idCount_removeFirstId_self (i : Nat) :
    ∀ l : List Rec, idCount l i ≤ 1 → idCount (removeFirstId l i) i = 0 := by
  intro l
  induction l with
  | nil => intro _; rfl
  | cons x rest ih =>
      intro h
      rw [idCount_cons] at h
      by_cases hx : x.rid = i
      · rw [if_pos hx] at h
        simp only [removeFirstId, if_pos hx]
        omega
      · rw [if_neg hx] at h
        simp only [removeFirstId, if_neg hx]
        rw [idCount_cons, if_neg hx]
        have := ih (by omega)
        omega

/-- No record of a list with zero occurrences of `i` carries identity `i`. -/
theorem rid_ne_of_idCount_zero (i : Nat) (l : List Rec)
    (h : idCount l i = 0) : ∀ x ∈ l, x.rid ≠ i := by
  intro x hx hrid
  have : 0 < idCount l i := by
    simp only [idCount]
    rw [List.countP_pos_iff]
    exact ⟨x, hx, by simp [hrid]⟩
  omega

/-- Membership after `removeFirstId` implies original membership. -/
theorem mem_removeFirstId (j : Nat) :
    ∀ (l : List Rec) (x : Rec), x ∈ removeFirstId l j → x ∈ l := by
  intro l
  induction l with
  | nil => intro x hx; cases hx
  | cons y rest ih =>
      intro x hx
      simp only [removeFirstId] at hx
      by_cases h : y.rid = j
      · rw [if_pos h] at hx
        exact List.mem_cons_of_mem _ hx
      · rw [if_neg h] at hx
        rcases List.mem_cons.mp hx with h1 | h1
        · exact h1 ▸ List.mem_cons_self _ _
        · exact List.mem_cons_of_mem _ (ih x h1)

/-- Membership after `removeFirstCb` implies original membership. -/
theorem mem_removeFirstCb (c : Nat) :
    ∀ (l : List Rec) (x : Rec), x ∈ removeFirstCb l c → x ∈ l := by
  intro l
  induction l with
  | nil => intro x hx; cases hx
  | cons y rest ih =>
      intro x hx
      simp only [removeFirstCb] at hx
      by_cases h : y.callback = c
      · rw [if_pos h] at hx
        exact List.mem_cons_of_mem _ hx
      · rw [if_neg h] at hx
        rcases List.mem_cons.mp hx with h1 | h1
        · exact h1 ▸ List.mem_cons_self _ _
        · exact List.mem_cons_of_mem _ (ih x h1)

/-- `removeFirstCb` never increases an identity count. -/
theorem idCount_removeFirstCb_le (i c : Nat) :
    ∀ l : List Rec, idCount (removeFirstCb l c) i ≤ idCount l i := by
  intro l
  induction l with
  | nil => exact Nat.le_refl _
  | cons x rest ih =>
      simp only [removeFirstCb]
      by_cases h : x.callback = c
      · simp only [if_pos h, idCount, List.countP_cons]
        exact Nat.le_add_right _ _
      · simp only [if_neg h, idCount, List.countP_cons] at *
        exact Nat.add_le_add_right ih _

/-- A record of identity `i` surviving the decrement was present before
(when its identity differs from the decremented one). -/
theorem mem_decCount_of_ne (i j : Nat) (hij : i ≠ j) :
    ∀ (l : List Rec) (x : Rec), x ∈ decCount l j → x.rid = i → x ∈ l := by
  intro l
  induction l with
  | nil => intro x hx; cases hx
  | cons y rest ih =>
      intro x hx hrid
      simp only [decCount, List.map_cons] at hx
      rcases List.mem_cons.mp hx with h1 | h1
      · by_cases h : y.rid = j
        · rw [if_pos h] at h1
          rw [h1] at hrid
          exact absurd (hrid.symm.trans h).symm hij.symm
        · rw [if_neg h] at h1
          exact h1 ▸ List.mem_cons_self _ _
      · exact List.mem_cons_of_mem _ (ih x h1 hrid)

/-- A registry mutation that does not insert identity `i` never increases
the occurrence count of `i` in any event's array. -/
theorem idCount_applyOp_le (i : Nat) (op : RegOp)
    (hop : op.addsId i = false) (evs : String → List Rec) (e' : String) :
    idCount (applyOp evs op e') i ≤ idCount (evs e') i := by
  cases op with
  | addRec e r front =>
      simp only [RegOp.addsId, beq_eq_false_iff_ne, ne_eq] at hop
      simp only [applyOp, updEvs]
      by_cases he : e' = e
      · rw [if_pos he, he]
        have hr : (r.rid == i) = false := by simp [hop]
        by_cases hf : front = true
        · rw [if_pos hf]
          simp only [idCount, List.countP_cons, hr, if_false, Nat.add_zero]
          exact Nat.le_refl _
        · rw [if_neg hf]
          simp only [idCount, List.countP_append, List.countP_cons,
            List.countP_nil, hr, if_false, Nat.add_zero, Nat.zero_add]
          exact Nat.le_refl _
      · rw [if_neg he]
  | rmCb e c =>
      simp only [applyOp, updEvs]
      by_cases he : e' = e
      · rw [if_pos he, he]
        exact idCount_removeFirstCb_le i c _
      · rw [if_neg he]

/-- A record of identity `i` surviving a mutation that does not insert `i`
was present before. -/
theorem mem_applyOp_rid (i : Nat) (op : RegOp)
    (hop : op.addsId i = false) (evs : String → List Rec) (e' : String)
    (x : Rec) (hx : x ∈ applyOp evs op e') (hrid : x.rid = i) :
    x ∈ evs e' := by
  cases op with
  | addRec e r front =>
      simp only [RegOp.addsId, beq_eq_false_iff_ne, ne_eq] at hop
      simp only [applyOp, updEvs] at hx
      by_cases he : e' = e
      · rw [if_pos he] at hx
        subst he
        by_cases hf : front = true
        · rw [if_pos hf] at hx
          rcases List.mem_cons.mp hx with h1 | h1
          · exact absurd (h1 ▸ hrid) hop
          · exact h1
        · rw [if_neg hf] at hx
          rcases List.mem_append.mp hx with h1 | h1
          · exact h1
          · rcases List.mem_cons.mp h1 with h2 | h2
            · exact absurd (h2 ▸ hrid) hop
            · cases h2
      · rw [if_neg he] at hx
        exact hx
  | rmCb e c =>
      simp only [applyOp, updEvs] at hx
      by_cases he : e' = e
      · rw [if_pos he] at hx
        subst he
        exact mem_removeFirstCb c _ x hx
      · rw [if_neg he] at hx
        exact hx

/-- Folding mutations that avoid identity `i` never increases its count. -/
theorem idCount_foldl_le (i : Nat) :
    ∀ (ops : List RegOp) (evs : String → List Rec),
      (∀ op ∈ ops, op.addsId i = false) →
      ∀ e', idCount ((ops.foldl applyOp evs) e') i ≤ idCount (evs e') i := by
  intro ops
  induction ops with
  | nil => intro evs _ e'; exact Nat.le_refl _
  | cons op rest ih =>
      intro evs h e'
      simp only [List.foldl_cons]
      exact Nat.le_trans
        (ih (applyOp evs op) (fun o ho => h o (List.mem_cons_of_mem _ ho)) e')
        (idCount_applyOp_le i op (h op (List.mem_cons_self _ _)) evs e')

/-- A record of identity `i` surviving a fold of `i`-avoiding mutations was
present before the fold. -/
theorem mem_foldl_rid (i : Nat) :
    ∀ (ops : List RegOp) (evs : String → List Rec),
      (∀ op ∈ ops, op.addsId i = false) →
      ∀ e' x, x ∈ (ops.foldl applyOp evs) e' → x.rid = i → x ∈ evs e' := by
  intro ops
  induction ops with
  | nil => intro evs _ e' x hx _; exact hx
  | cons op rest ih =>
      intro evs h e' x hx hrid
      simp only [List.foldl_cons] at hx
      exact mem_applyOp_rid i op (h op (List.mem_cons_self _ _)) evs e' x
        (ih (applyOp evs op) (fun o ho => h o (List.mem_cons_of_mem _ ho))
          e' x hx hrid) hrid

/-- One dispatch step never increases the occurrence count of an identity
the environment avoids. -/
theorem idCount_stepEvs_le (env : Env) (event : String) (args : List Value)
    (i : Nat) (hA : envAvoids env i) (evs : String → List Rec) (r : Rec)
    (e' : String) :
    idCount (stepEvs env event args evs r e') i ≤ idCount (evs e') i := by
  have hops : ∀ op ∈ (env r.callback args).1, op.addsId i = false :=
    fun op hop => hA r.callback args op hop
  refine Nat.le_trans (idCount_foldl_le i _ _ hops e') ?_
  simp only [updEvs]
  by_cases he : e' = event
  · rw [if_pos he, he]
    by_cases hc : JNum.lt r.count.sub1 (.fin 1) = true
    · rw [if_pos hc]
      exact Nat.le_trans (idCount_removeFirstId_le i r.rid _)
        (Nat.le_of_eq (idCount_decCount i r.rid _))
    · rw [if_neg hc]
      exact Nat.le_of_eq (idCount_decCount i r.rid _)
  · rw [if_neg he]

/-- The dispatch step for the snapshot record carrying identity `i` itself
(with an expiring count) empties `i` from the event's live array. -/
theorem idCount_stepEvs_self_zero (env : Env) (event : String)
    (args : List Value) (i : Nat) (hA : envAvoids env i)
    (evs : String → List Rec) (r : Rec) (hrid : r.rid = i)
    (hexp : JNum.lt r.count.sub1 (.fin 1) = true)
    (hle : idCount (evs event) i ≤ 1) :
    idCount (stepEvs env event args evs r event) i = 0 := by
  have hops : ∀ op ∈ (env r.callback args).1, op.addsId i = false :=
    fun op hop => hA r.callback args op hop
  have hstep : stepEvs env event args evs r
      = (env r.callback args).1.foldl applyOp
          (updEvs evs event
            (removeFirstId (decCount (evs event) r.rid) r.rid)) := by
    simp only [stepEvs, if_pos hexp]
  have h0 : idCount (updEvs evs event
      (removeFirstId (decCount (evs event) r.rid) r.rid) event) i = 0 := by
    simp only [updEvs, if_pos rfl]
    rw [hrid]
    refine idCount_removeFirstId_self i _ ?_
    rw [idCount_decCount]
    exact hle
  rw [hstep]
  exact Nat.le_zero.mp (Nat.le_trans (idCount_foldl_le i _ _ hops event)
    (Nat.le_of_eq h0))

/-- A record with identity `i` surviving one dispatch step was live before
the step (the environment avoids `i`; if the processed record itself
carries `i` it has an expiring count and at most one occurrence, so it
cannot survive). -/
theorem mem_stepEvs_rid (env : Env) (event : String) (args : List Value)
    (i : Nat) (hA : envAvoids env i) (evs : String → List Rec) (r : Rec)
    (hcase : r.rid ≠ i ∨
      (JNum.lt r.count.sub1 (.fin 1) = true ∧ idCount (evs event) i ≤ 1))
    (e' : String) (x : Rec) (hx : x ∈ stepEvs env event args evs r e')
    (hrid : x.rid = i) : x ∈ evs e' := by
  have hops : ∀ op ∈ (env r.callback args).1, op.addsId i = false :=
    fun op hop => hA r.callback args op hop
  have hx1 := mem_foldl_rid i _ _ hops e' x hx hrid
  simp only [updEvs] at hx1
  by_cases he : e' = event
  · rw [if_pos he] at hx1
    subst he
    by_cases hri : r.rid = i
    · rcases hcase with hne | ⟨hexp, hle⟩
      · exact absurd hri hne
      · rw [if_pos hexp] at hx1
        have h0 : idCount
            (removeFirstId (decCount (evs e') r.rid) r.rid) i = 0 := by
          rw [hri]
          refine idCount_removeFirstId_self i _ ?_
          rw [idCount_decCount]
          exact hle
        exact absurd hrid (rid_ne_of_idCount_zero i _ h0 x hx1)
    · have hij : i ≠ r.rid := fun hh => hri hh.symm
      by_cases hc : JNum.lt r.count.sub1 (.fin 1) = true
      · rw [if_pos hc] at hx1
        exact mem_decCount_of_ne i r.rid hij _ x
          (mem_removeFirstId r.rid _ x hx1) hrid
      · rw [if_neg hc] at hx1
        exact mem_decCount_of_ne i r.rid hij _ x hx1 hrid
  · rw [if_neg he] at hx1
    exact hx1

/-- Unfolding the dispatch loop on a throwing listener (general policy). -/
theorem emitLoop_cons_thr {env : Env} {onError : ErrPolicy} {event : String}
    {args : List Value} {r : Rec} {e : Value}
    (rest : List Rec) (evs : String → List Rec) (results : List Value)
    (trace : List (Nat × Nat)) (he : (env r.callback args).2 = .thr e) :
    emitLoop env onError event args (r :: rest) evs results trace
      = match handleError results e onError none with
        | .error e' =>
            ⟨stepEvs env event args evs r, trace ++ [(r.rid, r.callback)],
             .error e'⟩
        | .ok results' =>
            emitLoop env onError event args rest (stepEvs env event args evs r)
              results' (trace ++ [(r.rid, r.callback)]) := by
  simp only [emitLoop, he]

/-- Master lemma for one dispatch loop over identity `i` (the environment
avoids re-inserting `i`; every snapshot record carrying `i` has an expiring
count; `i` occurs at most once in the snapshot and in the live array):
the loop never increases occurrence counts of `i`, every surviving
`i`-record was live before, and the trace mentions `i` at most as often as
the snapshot does — and whenever it does, `i` has been removed from the
event's live array. -/
theorem emitLoop_once (env : Env) (onError : ErrPolicy) (event : String)
    (args : List Value) (i : Nat) (hA : envAvoids env i) :
    ∀ (snap : List Rec) (evs : String → List Rec) (results : List Value)
      (trace : List (Nat × Nat)),
      snap.countP (fun x => x.rid == i) ≤ 1 →
      (∀ x ∈ snap, x.rid = i → JNum.lt x.count.sub1 (.fin 1) = true) →
      idCount (evs event) i ≤ 1 →
      (∀ e', idCount
          ((emitLoop env onError event args snap evs results trace).evs e') i
          ≤ idCount (evs e') i)
      ∧ (∀ e' x,
          x ∈ (emitLoop env onError event args snap evs results trace).evs e' →
          x.rid = i → x ∈ evs e')
      ∧ ∃ new,
          (emitLoop env onError event args snap evs results trace).trace
            = trace ++ new
          ∧ new.countP (fun t => t.1 == i)
              ≤ snap.countP (fun x => x.rid == i)
          ∧ (1 ≤ new.countP (fun t => t.1 == i) →
              idCount
                ((emitLoop env onError event args snap evs results trace).evs
                  event) i = 0) := by
  intro snap
  induction snap with
  | nil =>
      intro evs results trace _ _ _
      refine ⟨fun e' => Nat.le_refl _, fun e' x hx _ => hx, [], ?_, ?_, ?_⟩
      · simp [emitLoop]
      · simp
      · intro h
        simp at h
  | cons r rest ih =>
      intro evs results trace hsc hcond hle
      have hsplit : (r :: rest).countP (fun x => x.rid == i)
          = rest.countP (fun x => x.rid == i)
            + if r.rid = i then 1 else 0 := by
        rw [List.countP_cons]
        by_cases h : r.rid = i <;> simp [h]
      have hrest_sc : rest.countP (fun x => x.rid == i) ≤ 1 := by
        rw [hsplit] at hsc
        omega
      have hrest_cond : ∀ x ∈ rest, x.rid = i →
          JNum.lt x.count.sub1 (.fin 1) = true :=
        fun x hx h => hcond x (List.mem_cons_of_mem _ hx) h
      have hE_le : ∀ e',
          idCount (stepEvs env event args evs r e') i ≤ idCount (evs e') i :=
        fun e' => idCount_stepEvs_le env event args i hA evs r e'
      have hE_event : idCount (stepEvs env event args evs r event) i ≤ 1 :=
        Nat.le_trans (hE_le event) hle
      have hcase : r.rid ≠ i ∨
          (JNum.lt r.count.sub1 (.fin 1) = true
            ∧ idCount (evs event) i ≤ 1) := by
        by_cases h : r.rid = i
        · exact Or.inr ⟨hcond r (List.mem_cons_self _ _) h, hle⟩
        · exact Or.inl h
      cases hb : (env r.callback args).2 with
      | ret v =>
          rw [emitLoop_cons_ret rest evs results trace hb]
          obtain ⟨ih1, ih2, new', htr', hcnt', hcond'⟩ :=
            ih (stepEvs env event args evs r) (results ++ [v])
              (trace ++ [(r.rid, r.callback)]) hrest_sc hrest_cond hE_event
          refine ⟨?_, ?_, (r.rid, r.callback) :: new', ?_, ?_, ?_⟩
          · intro e'
            exact Nat.le_trans (ih1 e') (hE_le e')
          · intro e' x hx hr
            exact mem_stepEvs_rid env event args i hA evs r hcase e' x
              (ih2 e' x hx hr) hr
          · rw [htr', List.append_assoc]
            rfl
          · rw [hsplit, List.countP_cons]
            by_cases h : r.rid = i
            · simp only [h, beq_self_eq_true, if_true, if_pos rfl]
              exact Nat.add_le_add_right hcnt' 1
            · have hf : (r.rid == i) = false := by simp [h]
              simp only [hf, Bool.false_eq_true, if_false, if_neg h,
                Nat.add_zero]
              exact hcnt'
          · intro hone
            by_cases h : r.rid = i
            · have h0 := idCount_stepEvs_self_zero env event args i hA evs r
                h (hcond r (List.mem_cons_self _ _) h) hle
              exact Nat.le_zero.mp (Nat.le_trans (ih1 event)
                (Nat.le_of_eq h0))
            · have hf : (r.rid == i) = false := by simp [h]
              rw [List.countP_cons, hf] at hone
              simp only [Bool.false_eq_true, if_false, Nat.add_zero] at hone
              exact hcond' hone
      | thr e =>
          rw [emitLoop_cons_thr rest evs results trace hb]
          cases hh : handleError results e onError none with
          | ok results' =>
              simp only [hh]
              obtain ⟨ih1, ih2, new', htr', hcnt', hcond'⟩ :=
                ih (stepEvs env event args evs r) results'
                  (trace ++ [(r.rid, r.callback)]) hrest_sc hrest_cond
                  hE_event
              refine ⟨?_, ?_, (r.rid, r.callback) :: new', ?_, ?_, ?_⟩
              · intro e'
                exact Nat.le_trans (ih1 e') (hE_le e')
              · intro e' x hx hr
                exact mem_stepEvs_rid env event args i hA evs r hcase e' x
                  (ih2 e' x hx hr) hr
              · rw [htr', List.append_assoc]
                rfl
              · rw [hsplit, List.countP_cons]
                by_cases h : r.rid = i
                · simp only [h, beq_self_eq_true, if_true, if_pos rfl]
                  exact Nat.add_le_add_right hcnt' 1
                · have hf : (r.rid == i) = false := by simp [h]
                  simp only [hf, Bool.false_eq_true, if_false, if_neg h,
                    Nat.add_zero]
                  exact hcnt'
              · intro hone
                by_cases h : r.rid = i
                · have h0 := idCount_stepEvs_self_zero env event args i hA
                    evs r h (hcond r (List.mem_cons_self _ _) h) hle
                  exact Nat.le_zero.mp (Nat.le_trans (ih1 event)
                    (Nat.le_of_eq h0))
                · have hf : (r.rid == i) = false := by simp [h]
                  rw [List.countP_cons, hf] at hone
                  simp only [Bool.false_eq_true, if_false,
                    Nat.add_zero] at hone
                  exact hcond' hone
          | error e2 =>
              simp only [hh]
              refine ⟨?_, ?_, [(r.rid, r.callback)], rfl, ?_, ?_⟩
              · intro e'
                exact hE_le e'
              · intro e' x hx hr
                exact mem_stepEvs_rid env event args i hA evs r hcase e' x
                  hx hr
              · rw [hsplit]
                by_cases h : r.rid = i
                · simp [h]
                · simp [h]
              · intro hone
                by_cases h : r.rid = i
                · exact idCount_stepEvs_self_zero env event args i hA evs r
                    h (hcond r (List.mem_cons_self _ _) h) hle
                · exfalso
                  have hf : (r.rid == i) = false := by simp [h]
                  simp [List.countP_cons, hf] at hone

/-- Master facts for one `emit` call over identity `i`: occurrence counts
never grow, surviving `i`-records were live before, `i` is invoked at most
as often as it occurs in the live array, and once invoked it is gone from
the event's live array. -/
theorem emit_once (env : Env) (event : String) (i : Nat) (hA : envAvoids env i)
    (em : Emitter) (a : JArg) (p : ErrPolicy)
    (hle : idCount (em.events event) i ≤ 1)
    (hcond : ∀ x ∈ em.events event, x.rid = i →
      JNum.lt x.count.sub1 (.fin 1) = true) :
    (∀ e', idCount ((emit env em event a p).emitter.events e') i
        ≤ idCount (em.events e') i)
    ∧ (∀ e' x, x ∈ (emit env em event a p).emitter.events e' → x.rid = i →
        x ∈ em.events e')
    ∧ (emit env em event a p).trace.countP (fun t => t.1 == i)
        ≤ idCount (em.events event) i
    ∧ (1 ≤ (emit env em event a p).trace.countP (fun t => t.1 == i) →
        idCount ((emit env em event a p).emitter.events event) i = 0) := by
  by_cases hc : em.validEvents ≠ [] ∧ event ∉ em.validEvents
  · have hL : em.listeners event = .error (.invalidEventName event) := by
      rw [Emitter.listeners, if_pos hc]
    simp only [emit, hL]
    refine ⟨fun e' => Nat.le_refl _, fun e' x hx _ => hx, ?_, ?_⟩
    · simp
    · intro h
      simp at h
  · have hL : em.listeners event = .ok (em.events event) := by
      rw [Emitter.listeners, if_neg hc]
    obtain ⟨m1, m2, new, mtr, mcnt, mcond⟩ :=
      emitLoop_once env p event (normArgs a) i hA (em.events event)
        em.events [] [] hle hcond hle
    refine ⟨?_, ?_, ?_, ?_⟩
    · intro e'
      simp only [emit, hL]
      exact m1 e'
    · intro e' x hx hr
      simp only [emit, hL] at hx
      exact m2 e' x hx hr
    · simp only [emit, hL]
      rw [mtr]
      simpa [idCount] using mcnt
    · intro hone
      simp only [emit, hL] at hone ⊢
      rw [mtr] at hone
      simp only [List.nil_append] at hone
      exact mcond hone

/-- An identity absent from the event's live array never appears in any
later trace on that event, and stays absent. -/
theorem emitSeq_zero (env : Env) (event : String) (i : Nat)
    (hA : envAvoids env i) :
    ∀ (calls : List (JArg × ErrPolicy)) (em : Emitter),
      idCount (em.events event) i = 0 →
      (emitSeq env event calls em).2.countP (fun t => t.1 == i) = 0
      ∧ idCount ((emitSeq env event calls em).1.events event) i = 0 := by
  intro calls
  induction calls with
  | nil => intro em h; exact ⟨rfl, h⟩
  | cons c rest ih =>
      intro em h
      have hcond : ∀ x ∈ em.events event, x.rid = i →
          JNum.lt x.count.sub1 (.fin 1) = true := by
        intro x hx hr
        exact absurd hr (rid_ne_of_idCount_zero i _ h x hx)
      obtain ⟨e1, _, e3, _⟩ :=
        emit_once env event i hA em c.1 c.2 (by omega) hcond
      have htr0 : (emit env em event c.1 c.2).trace.countP
          (fun t => t.1 == i) = 0 := by omega
      have hev0 : idCount
          ((emit env em event c.1 c.2).emitter.events event) i = 0 := by
        have := e1 event
        omega
      obtain ⟨ih1, ih2⟩ := ih (emit env em event c.1 c.2).emitter hev0
      constructor
      · simp only [emitSeq, List.countP_append, htr0, ih1]
      · simp only [emitSeq]
        exact ih2

/-- Over any sequence of `emit` calls on the event, an identity occurring at
most once in the live array (with an expiring count) is invoked at most once
in total. -/
theorem emitSeq_atmost_one (env : Env) (event : String) (i : Nat)
    (hA : envAvoids env i) :
    ∀ (calls : List (JArg × ErrPolicy)) (em : Emitter),
      idCount (em.events event) i ≤ 1 →
      (∀ x ∈ em.events event, x.rid = i →
        JNum.lt x.count.sub1 (.fin 1) = true) →
      (emitSeq env event calls em).2.countP (fun t => t.1 == i) ≤ 1 := by
  intro calls
  induction calls with
  | nil => intro em _ _; simp [emitSeq]
  | cons c rest ih =>
      intro em hle hcond
      obtain ⟨e1, e2, e3, e4⟩ := emit_once env event i hA em c.1 c.2 hle hcond
      by_cases h1 : 1 ≤ (emit env em event c.1 c.2).trace.countP
          (fun t => t.1 == i)
      · obtain ⟨hz, _⟩ := emitSeq_zero env event i hA rest
          (emit env em event c.1 c.2).emitter (e4 h1)
        simp only [emitSeq, List.countP_append, hz]
        omega
      · have h0 : (emit env em event c.1 c.2).trace.countP
            (fun t => t.1 == i) = 0 := by omega
        have hrec := ih (emit env em event c.1 c.2).emitter
          (Nat.le_trans (e1 event) hle)
          (fun x hx hr => hcond x (e2 event x hx hr) hr)
        simp only [emitSeq, List.countP_append, h0]
        omega

/-- **C4.** A listener registered with remaining count 1 (`once`) is invoked
at most once across any sequence of `emit` calls on its event, even though
the behaviour environment may add or remove arbitrary listeners during
dispatch (it only never re-inserts the consumed record's identity, which
`addListener` cannot do since each registration allocates a fresh object);
whenever the emit that consumes it has invoked it, its record is already
gone from the live listener array at that emit's end — yet in that emit it
still fires, because it was part of the call-start snapshot. -/
theorem C4_once_at_most_once (env : Env) (em : Emitter) (event : String)
    (i : Nat) (hA : envAvoids env i)
    (h1 : idCount (em.events event) i ≤ 1)
    (h2 : ∀ x ∈ em.events event, x.rid = i → x.count = .fin 1) :
    (∀ calls, (emitSeq env event calls em).2.countP (fun t => t.1 == i) ≤ 1)
    ∧ (∀ a p, 1 ≤ (emit env em event a p).trace.countP (fun t => t.1 == i) →
        idCount ((emit env em event a p).emitter.events event) i = 0)
    ∧ (∀ a p l₁ x l₂, em.events event = l₁ ++ x :: l₂ → x.rid = i →
        envTotal env → em.validEvents = [] →
        1 ≤ (emit env em event a p).trace.countP (fun t => t.1 == i)) := by
  have hcond : ∀ x ∈ em.events event, x.rid = i →
      JNum.lt x.count.sub1 (.fin 1) = true := by
    intro x hx hr
    rw [h2 x hx hr]
    simp [JNum.sub1, JNum.lt]
  refine ⟨?_, ?_, ?_⟩
  · intro calls
    exact emitSeq_atmost_one env event i hA calls em h1 hcond
  · intro a p hone
    exact (emit_once env event i hA em a p h1 hcond).2.2.2 hone
  · intro a p l₁ x l₂ hsnap hrid htot hval
    have hL : em.listeners event = .ok (em.events event) := by
      simp [Emitter.listeners, hval]
    obtain ⟨E, res, hE⟩ := emitLoop_total_trace env p event (normArgs a)
      (em.events event) em.events [] []
      (fun y _ => htot y.callback (normArgs a))
    have htr : (emit env em event a p).trace
        = (em.events event).map (fun y => (y.rid, y.callback)) := by
      simp only [emit, hL, hE]
      exact List.nil_append _
    rw [htr, hsnap]
    have hmem : ((i, x.callback) : Nat × Nat)
        ∈ (l₁ ++ x :: l₂).map (fun y => (y.rid, y.callback)) := by
      refine List.mem_map.mpr ⟨x, ?_, by rw [hrid]⟩
      exact List.mem_append.mpr (Or.inr (List.mem_cons_self _ _))
    have hp : (fun t : Nat × Nat => t.1 == i) (i, x.callback) = true :=
      beq_self_eq_true i
    have hpos : 0 < ((l₁ ++ x :: l₂).map
        (fun y => (y.rid, y.callback))).countP (fun t => t.1 == i) :=
      List.countP_pos_iff.mpr ⟨(i, x.callback), hmem, hp⟩
    omega

/-- Witness for C4: one `once`-style record (count 1), two consecutive
emits; the record fires at most once in total. -/
theorem C4_once_at_most_once_witness :
    (emitSeq inertEnv "x" [(.val .undef, .ignore), (.val .undef, .ignore)]
        { initEmitter with
            events := updEvs (fun _ => []) "x" [⟨0, 7, .fin 1⟩] }).2.countP
      (fun t => t.1 == 0) ≤ 1 :=
  (C4_once_at_most_once inertEnv
    { initEmitter with events := updEvs (fun _ => []) "x" [⟨0, 7, .fin 1⟩] }
    "x" 0
    (fun _ _ op hop => absurd hop (List.not_mem_nil op))
    (by decide)
    (by
      intro x hx _
      simp [updEvs] at hx
      subst hx
      rfl)).1
    [(.val .undef, .ignore), (.val .undef, .ignore)]

/-- JS decrement keeps a number below 1 below 1. -/
theorem jnum_lt_one_sub1 (n : JNum) (h : JNum.lt n (.fin 1) = true) :
    JNum.lt n.sub1 (.fin 1) = true := by
  cases n with
  | nan => simp [JNum.lt] at h
  | inf => simp [JNum.lt] at h
  | ninf => rfl
  | fin q =>
      simp only [JNum.lt, decide_eq_true_eq] at h
      simp only [JNum.sub1, JNum.lt, decide_eq_true_eq]
      linarith

/-- Occurrence counts add over list append. -/
theorem idCount_append (l₁ l₂ : List Rec) (i : Nat) :
    idCount (l₁ ++ l₂) i = idCount l₁ i + idCount l₂ i :=
  List.countP_append _ _ _

/-- **C10.** Registering a listener whose `options.count` is below 1 (for
example 0 or a negative number) succeeds — the count is never validated —
and the next `emit` of that event still invokes the listener exactly once:
its record is removed from the live listener array during that emit (the
decremented count is below 1), and across any further sequence of emits it
never fires again. -/
theorem C10_low_count_single_fire (env : Env) (em : Emitter) (event : String)
    (c : Nat) (cnt : JNum)
    (hval : em.validEvents = [])
    (hnl : em.events "newListener" = [])
    (hcnt : JNum.lt cnt (.fin 1) = true)
    (hA : envAvoids env em.fresh)
    (hfresh : idCount (em.events event) em.fresh = 0)
    (htot : envTotal env) :
    (addListener env em event [.fn c] ⟨some cnt, false, .undef⟩).2.2 = .ok ()
    ∧ (addListener env em event [.fn c] ⟨some cnt, false, .undef⟩).1.events
        event = em.events event ++ [⟨em.fresh, c, cnt⟩]
    ∧ ∀ a p,
        ((emit env (addListener env em event [.fn c]
            ⟨some cnt, false, .undef⟩).1 event a p).trace.countP
          (fun t => t.1 == em.fresh)) = 1
        ∧ idCount ((emit env (addListener env em event [.fn c]
            ⟨some cnt, false, .undef⟩).1 event a p).emitter.events event)
            em.fresh = 0
        ∧ ∀ calls,
            ((emitSeq env event calls
              (emit env (addListener env em event [.fn c]
                ⟨some cnt, false, .undef⟩).1 event a p).emitter).2.countP
              (fun t => t.1 == em.fresh)) = 0 := by
  obtain ⟨em', heq, hevents, hval', hfresh', _⟩ :=
    addListener_single env em event c ⟨some cnt, false, .undef⟩ hval hnl
  have h1 : (addListener env em event [.fn c]
      ⟨some cnt, false, .undef⟩).1 = em' := by rw [heq]
  have h2 : em'.events event = em.events event ++ [⟨em.fresh, c, cnt⟩] := by
    rw [hevents]
    simp [updEvs]
  have hcount1 : idCount (em'.events event) em.fresh = 1 := by
    rw [h2, idCount_append, hfresh, idCount_cons]
    simp [idCount]
  have hcond1 : ∀ x ∈ em'.events event, x.rid = em.fresh →
      JNum.lt x.count.sub1 (.fin 1) = true := by
    intro x hx hr
    rw [h2] at hx
    rcases List.mem_append.mp hx with hold | hnew
    · exact absurd hr (rid_ne_of_idCount_zero em.fresh _ hfresh x hold)
    · simp only [List.mem_singleton] at hnew
      subst hnew
      exact jnum_lt_one_sub1 cnt hcnt
  refine ⟨by rw [heq], by rw [h1, h2], ?_⟩
  intro a p
  have hL : em'.listeners event = .ok (em'.events event) := by
    simp [Emitter.listeners, hval']
  obtain ⟨E, res, hE⟩ := emitLoop_total_trace env p event (normArgs a)
    (em'.events event) em'.events [] []
    (fun y _ => htot y.callback (normArgs a))
  have htr : (emit env em' event a p).trace
      = (em'.events event).map (fun y => (y.rid, y.callback)) := by
    simp only [emit, hL, hE]
    exact List.nil_append _
  have hexact : (emit env em' event a p).trace.countP
      (fun t => t.1 == em.fresh) = 1 := by
    rw [htr, List.countP_map]
    have : ((fun t : Nat × Nat => t.1 == em.fresh)
        ∘ fun y : Rec => (y.rid, y.callback))
        = fun y : Rec => y.rid == em.fresh := rfl
    rw [this]
    exact hcount1
  have hgone : idCount ((emit env em' event a p).emitter.events event)
      em.fresh = 0 := by
    refine (emit_once env event em.fresh hA em' a p
      (Nat.le_of_eq hcount1) hcond1).2.2.2 ?_
    omega
  refine ⟨by rw [h1]; exact hexact, by rw [h1]; exact hgone, ?_⟩
  intro calls
  rw [h1]
  exact (emitSeq_zero env event em.fresh hA calls
    (emit env em' event a p).emitter hgone).1

/-- Witness for C10: `options.count = 0`; the registration succeeds and the
next emit fires the listener exactly once. -/
theorem C10_low_count_single_fire_witness :
    (addListener inertEnv initEmitter "x" [.fn 9]
        ⟨some (.fin 0), false, .undef⟩).2.2 = .ok ()
    ∧ ((emit inertEnv (addListener inertEnv initEmitter "x" [.fn 9]
        ⟨some (.fin 0), false, .undef⟩).1 "x" (.val .undef)
        .ignore).trace.countP (fun t => t.1 == initEmitter.fresh)) = 1 := by
  have h := C10_low_count_single_fire inertEnv initEmitter "x" 9 (.fin 0)
    rfl rfl (by simp [JNum.lt]) (fun _ _ op hop => absurd hop (List.not_mem_nil op))
    rfl (fun _ _ => ⟨.undef, rfl⟩)
  exact ⟨h.1, (h.2.2 (.val .undef) .ignore).1⟩
